import Mathlib

/-!
Verification of the entity-resolution core of `data_integration_toolkit.py`
(class `HezbollahDataIntegrator`): name normalization, name-index
construction, exact and fuzzy matching, location search, profile assembly,
and the two batch drivers `batch_search_names` and `process_new_source`.

Strings are modelled as `List Char`.  Python's `str.upper`, `str.strip`,
`str.split`, and the regex word/space classes are modelled over ASCII
(Lean's `Char.toUpper` is exactly the ASCII uppercase map, matching
Python's behaviour on the ASCII inputs these claims are about).
-/

namespace DIT

/-- Word characters for the regex `\b` and `\w` semantics (ASCII model of
Python `re`): letters, digits, underscore. -/
def isWordChar (c : Char) : Bool := c.isAlphanum || c == '_'

/-- ASCII whitespace recognized by Python `str.split()` / `str.strip()`. -/
def isPySpace (c : Char) : Bool :=
  c == ' ' || c == '\t' || c == '\n' || c == '\r' || c == '\x0b' || c == '\x0c'

/-- Python `str.upper()` (ASCII model). -/
def pyUpper (s : List Char) : List Char := s.map Char.toUpper

/-- Python `str.strip()`: drop leading and trailing whitespace. -/
def pyStrip (s : List Char) : List Char :=
  (((s.dropWhile isPySpace).reverse).dropWhile isPySpace).reverse

/-- Python `str.split()` with no separator: split on whitespace runs,
discarding empty chunks. -/
def splitWs : List Char → List (List Char)
  | [] => []
  | c :: cs =>
    if isPySpace c then splitWs cs
    else
      ((c :: cs).takeWhile (fun d => !isPySpace d)) ::
        splitWs ((c :: cs).dropWhile (fun d => !isPySpace d))
termination_by s => s.length
decreasing_by
  · simp only [List.length_cons]; omega
  · rw [List.dropWhile_cons_of_pos (by simp_all)]
    have := (@List.dropWhile_sublist Char cs (fun d => !isPySpace d)).length_le
    simp only [List.length_cons]
    omega

/-- `' '.join(chunks)`. -/
def joinSp : List (List Char) → List Char
  | [] => []
  | [w] => w
  | w :: ws => w ++ ' ' :: joinSp ws

/-- `' '.join(name.split())` — collapse whitespace runs to single spaces and
trim the ends (data_integration_toolkit.py line 54). -/
def collapseWs (s : List Char) : List Char := joinSp (splitWs s)

/-- The honorific tokens of the regex
`\b(MR|MRS|MS|DR|PROF|SR|JR)\b\.?` (line 52). -/
def honorifics : List (List Char) :=
  ["MR".data, "MRS".data, "MS".data, "DR".data, "PROF".data, "SR".data, "JR".data]

/-- The regex's optional trailing period `\.?`. -/
def dropDot : List Char → List Char
  | '.' :: r => r
  | r => r

/-- `re.sub(r'\b(MR|MRS|MS|DR|PROF|SR|JR)\b\.?', '', name)` (line 52).
Because every alternative is bracketed by word boundaries, a regex match is
exactly a maximal word-character run equal to one of the honorifics,
together with one optional period directly after it; the scan deletes those
and keeps everything else. -/
def removeHonorifics : List Char → List Char
  | [] => []
  | c :: cs =>
    if isWordChar c then
      if honorifics.contains ((c :: cs).takeWhile isWordChar) then
        removeHonorifics (dropDot ((c :: cs).dropWhile isWordChar))
      else (c :: cs).takeWhile isWordChar ++
        removeHonorifics ((c :: cs).dropWhile isWordChar)
    else c :: removeHonorifics cs
termination_by s => s.length
decreasing_by
  · rw [List.dropWhile_cons_of_pos (by simp_all)]
    have h1 : (dropDot (List.dropWhile isWordChar cs)).length ≤
        (List.dropWhile isWordChar cs).length := by
      unfold dropDot
      split <;> simp_all
    have h2 := (@List.dropWhile_sublist Char cs isWordChar).length_le
    simp only [List.length_cons]
    omega
  · rw [List.dropWhile_cons_of_pos (by simp_all)]
    have := (@List.dropWhile_sublist Char cs isWordChar).length_le
    simp only [List.length_cons]
    omega
  · simp only [List.length_cons]; omega

/-- The maximal word-character runs of a string, in order — the tokens the
regex's `\\b` boundaries delimit.  Used to state the invariant that
normalized output contains no honorific word. -/
def wordsOf : List Char → List (List Char)
  | [] => []
  | c :: cs =>
    if isWordChar c then
      (c :: cs).takeWhile isWordChar :: wordsOf ((c :: cs).dropWhile isWordChar)
    else wordsOf cs
termination_by s => s.length
decreasing_by
  · rw [List.dropWhile_cons_of_pos (by simp_all)]
    have := (@List.dropWhile_sublist Char cs isWordChar).length_le
    simp only [List.length_cons]
    omega
  · simp only [List.length_cons]; omega

/-- The first character (if any) fails `p`; the shape of a string that can
follow a maximal `p`-run.  Verification-only predicate. -/
def headFails (p : Char → Bool) : List Char → Prop
  | [] => True
  | c :: _ => p c = false

/-- `normalize_name` (lines 46-55): `pd.isna` → `""`; uppercase; strip the
honorific tokens; collapse whitespace.  A missing value (pandas `NaN`) is
modelled as `none`. -/
def normalize_name : Option (List Char) → List Char
  | none => []
  | some s => collapseWs (removeHonorifics (pyUpper s))

/-! ## Name index (`_build_name_index`, lines 28-44) -/

/-- One row of the Entity table (`hezbollah_entities.csv`; spec §6).
`uid` is the integer primary key; `last_name` is required, the other text
columns are optional (`NaN` modelled as `none`). -/
structure EntityRow where
  uid : Int
  sdn_type : Option (List Char)
  first_name : Option (List Char)
  last_name : List Char
  title : Option (List Char)
  remarks : Option (List Char)
deriving DecidableEq, Repr

/-- One row of the Alias table (`hezbollah_aliases.csv`; spec §6). -/
structure AliasRow where
  entity_uid : Int
  aka_uid : Int
  type : Option (List Char)
  category : Option (List Char)
  first_name : Option (List Char)
  last_name : List Char
deriving DecidableEq, Repr

/-- The name index is a Python dict canonical-name → uid; modelled as an
association list in insertion order with unique keys. -/
abbrev NameIndex := List (List Char × Int)

/-- Python dict assignment `d[k] = v`: overwrite the value in place when the
key is present (keeping its position), else append at the end. -/
def dictInsert (m : NameIndex) (k : List Char) (v : Int) : NameIndex :=
  if m.any (fun p => p.1 == k) then
    m.map (fun p => if p.1 == k then (k, v) else p)
  else m ++ [(k, v)]

/-- Python `d.get(k)`: the stored value, or `None` when absent. -/
def dictGet (m : NameIndex) (k : List Char) : Option Int :=
  (m.find? (fun p => p.1 == k)).map (fun p => p.2)

/-- The key computed for one row by `_build_name_index` (lines 34-35 and
40-41): `f"{first_name if pd.notna(first_name) else ''} {last_name}"`
followed by `.strip().upper()` — note: *not* `normalize_name`. -/
def indexKey (first_name : Option (List Char)) (last_name : List Char) : List Char :=
  pyUpper (pyStrip ((first_name.getD []) ++ ' ' :: last_name))

/-- `_build_name_index` (lines 28-44): primary names first, then aliases,
each `names[full_name] = uid`-style insertion overwriting any earlier
binding of the same key. -/
def build_name_index (entities : List EntityRow) (aliases : List AliasRow) : NameIndex :=
  let names : NameIndex := []
  let names := entities.foldl
    (fun m e => dictInsert m (indexKey e.first_name e.last_name) e.uid) names
  aliases.foldl
    (fun m a => dictInsert m (indexKey a.first_name a.last_name) a.entity_uid) names

/-- The index construction as the spec and claim C1 word it (§4.2): the same
entities-then-aliases fold, but recording each composed name under the
*Normalizer's* canonicalization (`normalize_name`, with honorific stripping
and whitespace collapse) instead of the code's bare `.strip().upper()`.
Defined only to compare against `build_name_index`. -/
def build_name_index_spec (entities : List EntityRow) (aliases : List AliasRow) :
    NameIndex :=
  let names : NameIndex := []
  let names := entities.foldl
    (fun m e => dictInsert m
      (normalize_name (some ((e.first_name.getD []) ++ ' ' :: e.last_name))) e.uid) names
  aliases.foldl
    (fun m a => dictInsert m
      (normalize_name (some ((a.first_name.getD []) ++ ' ' :: a.last_name))) a.entity_uid) names

/-! ## Matcher (`exact_match` lines 57-60, `fuzzy_match` lines 62-77) -/

/-- `exact_match`: normalize, then a dict lookup; `None` when absent. -/
def exact_match (idx : NameIndex) (name : Option (List Char)) : Option Int :=
  dictGet idx (normalize_name name)

/-- The cost model of `python-Levenshtein`'s `ratio` (which `fuzz.ratio`
calls): insert/delete cost 1, substitution cost 2. -/
def indelCost : Levenshtein.Cost Char Char Nat :=
  { delete := fun _ => 1, insert := fun _ => 1,
    substitute := fun a b => if a = b then 0 else 2 }

/-- The external `fuzzywuzzy.fuzz.ratio` collaborator, modelled (as spec
§4.3/§9 allow) as the rounded normalized edit ratio
`round(100 * (lensum - distance) / lensum)` over the insert/delete
distance, with 100 for two empty strings.  Identical strings score 100,
disjoint strings 0; no proof below relies on any other exact value. -/
def fuzz_ratio (a b : List Char) : Nat :=
  let lensum := a.length + b.length
  if lensum = 0 then 100
  else (100 * (lensum - levenshtein indelCost a b) + lensum / 2) / lensum

/-- A `fuzzy_match` result row (lines 70-75). -/
structure MatchResult where
  uid : Int
  ofac_name : List Char
  input_name : Option (List Char)
  match_score : Nat
deriving DecidableEq, Repr

/-- Descending-score order with ties allowed, the sort key of line 77. -/
def scoreGe (a b : MatchResult) : Prop := b.match_score ≤ a.match_score

instance : DecidableRel scoreGe := fun a b => Nat.decLe b.match_score a.match_score

instance : IsTotal MatchResult scoreGe :=
  ⟨fun a b => Nat.le_total b.match_score a.match_score⟩

instance : IsTrans MatchResult scoreGe :=
  ⟨fun _ _ _ h1 h2 => Nat.le_trans h2 h1⟩

/-- The scored row built for one index entry (lines 70-75): the query is
normalized once (line 64) and scored against the entry's canonical name. -/
def candidate (name : Option (List Char)) (p : List Char × Int) : MatchResult :=
  { uid := p.2
    ofac_name := p.1
    input_name := name
    match_score := fuzz_ratio (normalize_name name) p.1 }

/-- `fuzzy_match` (lines 62-77): score every index entry against the
normalized query, keep `score >= threshold`, and sort by descending score.
Python's `sorted(..., reverse=True)` is a stable sort; it is modelled by a
stable insertion sort (every stable sorting algorithm has equal output). -/
def fuzzy_match (idx : NameIndex) (name : Option (List Char)) (threshold : Nat) :
    List MatchResult :=
  let ms := (idx.map (candidate name)).filter (fun m => threshold ≤ m.match_score)
  ms.insertionSort scoreGe

/-! ## Location search (`search_by_location`, lines 79-88) -/

/-- One row of the Address table (`hezbollah_addresses.csv`; spec §6). -/
structure AddressRow where
  entity_uid : Int
  address_uid : Int
  address1 : Option (List Char)
  address2 : Option (List Char)
  address3 : Option (List Char)
  city : Option (List Char)
  state_province : Option (List Char)
  postal_code : Option (List Char)
  country : Option (List Char)
deriving DecidableEq, Repr

/-- Executable substring test: `pat` occurs contiguously in `hay`. -/
def isSubstring (pat hay : List Char) : Bool :=
  hay.tails.any (fun t => pat.isPrefixOf t)

/-- Case-insensitive containment, modelling
`Series.str.contains(pat, case=False)` for the letter-only patterns these
claims exercise (pandas treats `pat` as a regex, which coincides with plain
substring search on such patterns). -/
def containsCI (hay pat : List Char) : Bool :=
  isSubstring (pyUpper pat) (pyUpper hay)

/-- Truthiness of an optional-string argument or cell (`if country:`,
`if name_column:` …): `None` and `""` are falsy. -/
def strTruthy : Option (List Char) → Bool
  | none => false
  | some c => c != []

/-- `search_by_location` (lines 79-88): successively filter the address
table by country and by city; a falsy argument skips its filter; rows whose
field is `NaN` never match (`na=False`). -/
def search_by_location (addresses : List AddressRow)
    (country city : Option (List Char)) : List AddressRow :=
  let results := addresses
  let results :=
    if strTruthy country then
      results.filter (fun a =>
        match a.country with
        | some v => containsCI v (country.getD [])
        | none => false)
    else results
  if strTruthy city then
    results.filter (fun a =>
      match a.city with
      | some v => containsCI v (city.getD [])
      | none => false)
  else results

/-! ## Profile assembly (`get_entity_profile`, lines 101-121) -/

/-- One row of the IdentityDocument table (`hezbollah_ids.csv`; spec §6). -/
structure IdRow where
  entity_uid : Int
  id_uid : Int
  id_type : Option (List Char)
  id_number : Option (List Char)
  id_country : Option (List Char)
  issue_date : Option (List Char)
  expiration_date : Option (List Char)
deriving DecidableEq, Repr

/-- The four reference tables loaded at construction (lines 18-21). -/
structure Tables where
  entities : List EntityRow
  aliases : List AliasRow
  addresses : List AddressRow
  ids : List IdRow
deriving Repr

/-- The aggregate built by `get_entity_profile` (lines 113-119). -/
structure EntityProfile where
  uid : Int
  basic_info : EntityRow
  aliases : List AliasRow
  addresses : List AddressRow
  ids : List IdRow
deriving DecidableEq, Repr

/-- `get_entity_profile` for an integer uid (lines 107-121): `None` when no
entity row matches; otherwise the first matching entity row joined with all
alias/address/id rows whose `entity_uid` equals `uid`. -/
def get_entity_profile (T : Tables) (uid : Int) : Option EntityProfile :=
  match T.entities.filter (fun e => e.uid == uid) with
  | [] => none
  | e :: _ => some {
      uid := uid
      basic_info := e
      aliases := T.aliases.filter (fun a => a.entity_uid == uid)
      addresses := T.addresses.filter (fun a => a.entity_uid == uid)
      ids := T.ids.filter (fun i => i.entity_uid == uid) }

/-- Python `int(s)` on a string: optional surrounding whitespace, optional
sign, one or more decimal digits; anything else raises `ValueError`
(modelled as `none`). -/
def pyInt (s : List Char) : Option Int :=
  let t := pyStrip s
  let signDigits : Int × List Char :=
    match t with
    | '-' :: r => (-1, r)
    | '+' :: r => (1, r)
    | r => (1, r)
  if signDigits.2 ≠ [] ∧ signDigits.2.all Char.isDigit then
    some (signDigits.1 *
      (signDigits.2.foldl (fun n c => 10 * n + (c.toNat - 48)) 0 : Nat))
  else none

/-- `get_entity_profile` including the argument conversion of lines 103-105:
a string uid goes through `int(uid)`, whose `ValueError` on non-numeric
input propagates to the caller (modelled as `Except.error ()`). -/
def get_entity_profile_checked (T : Tables) (uid : Int ⊕ List Char) :
    Except Unit (Option EntityProfile) :=
  match uid with
  | Sum.inl i => Except.ok (get_entity_profile T i)
  | Sum.inr s =>
    match pyInt s with
    | some i => Except.ok (get_entity_profile T i)
    | none => Except.error ()

/-! ## Batch drivers (`batch_search_names` lines 123-156,
`process_new_source` lines 165-210) -/

/-- Python truthiness of `exact_match`'s return in `if uid:` (lines 130 and
186): `None` and `0` are both falsy. -/
def uidTruthy : Option Int → Bool
  | none => false
  | some u => u != 0

/-- A row of `batch_search_names`' result frame; keys a row does not set
are `NaN` in the frame, modelled as `none`. -/
structure BatchResult where
  input_name : Option (List Char)
  match_type : List Char
  uid : Option Int
  ofac_name : Option (List Char)
  match_score : Nat
deriving DecidableEq, Repr

/-- The body of `batch_search_names`' loop for one name (lines 127-154): it
appends one row for an exact match, a best fuzzy match, or a `no_match` —
and appends *nothing* when `fuzzy` is disabled and the exact lookup fails. -/
def batch_row (idx : NameIndex) (fuzzy : Bool) (threshold : Nat)
    (name : Option (List Char)) : List BatchResult :=
  let uid := exact_match idx name
  if uidTruthy uid then
    [{ input_name := name
       match_type := "exact".data
       uid := uid
       ofac_name := none
       match_score := 100 }]
  else if fuzzy then
    match fuzzy_match idx name threshold with
    | m :: _ =>
      [{ input_name := name
         match_type := "fuzzy".data
         uid := some m.uid
         ofac_name := some m.ofac_name
         match_score := m.match_score }]
    | [] =>
      [{ input_name := name
         match_type := "no_match".data
         uid := none
         ofac_name := none
         match_score := 0 }]
  else []

/-- `batch_search_names` (lines 123-156). -/
def batch_search_names (idx : NameIndex) (names_list : List (Option (List Char)))
    (fuzzy : Bool) (threshold : Nat) : List BatchResult :=
  names_list.flatMap (batch_row idx fuzzy threshold)

/-- A source row handed to `process_new_source`: named columns with
possibly-missing (`NaN`) cells. -/
abbrev Row := List (List Char × Option (List Char))

/-- `name_column in row` membership test (lines 182, 202). -/
def rowHasCol (r : Row) (c : List Char) : Bool := r.any (fun p => p.1 == c)

/-- `row[column]` (missing cell = `NaN` = `none`). -/
def rowGet (r : Row) (c : List Char) : Option (List Char) :=
  match r.find? (fun p => p.1 == c) with
  | some p => p.2
  | none => none

/-- A row of `process_new_source`'s result frame; keys never set by the loop
body are `NaN`, modelled as `none`. -/
structure SourceResult where
  source_row : Nat
  ofac_match : Option (List Char)
  ofac_uid : Option Int
  match_score : Option Nat
  confidence : Option (List Char)
  location_matches : Option Nat
deriving DecidableEq, Repr

/-- The result dict starts as `{'source_row': idx}` (line 179); keys the
loop body never sets surface as `NaN` (`none`) in the output frame. -/
def initResult (i : Nat) : SourceResult :=
  { source_row := i
    ofac_match := none
    ofac_uid := none
    match_score := none
    confidence := none
    location_matches := none }

/-- Lines 183-199: the name-matching block of `process_new_source`'s loop
body.  An exact hit records verdict/uid/confidence but *no score*; otherwise
the top fuzzy match at the fixed threshold `80` (line 191) records its score
and a tiered confidence (`> 85` → medium, else low); otherwise
`none`/`new_entity`. -/
def name_verdict (idx : NameIndex) (name : Option (List Char)) (r : SourceResult) :
    SourceResult :=
  let uid := exact_match idx name
  if uidTruthy uid then
    { r with
      ofac_match := some "exact".data
      ofac_uid := uid
      confidence := some "high".data }
  else
    match fuzzy_match idx name 80 with
    | m :: _ =>
      { r with
        ofac_match := some "fuzzy".data
        ofac_uid := some m.uid
        match_score := some m.match_score
        confidence := some (if 85 < m.match_score then "medium".data else "low".data) }
    | [] =>
      { r with
        ofac_match := some "none".data
        confidence := some "new_entity".data }

/-- Lines 202-206: the location block of the loop body — a country-only
lookup whose count is attached only when positive
(`if len(loc_matches) > 0`). -/
def location_update (addresses : List AddressRow) (location : Option (List Char))
    (r : SourceResult) : SourceResult :=
  let loc_matches := search_by_location addresses location none
  if 0 < loc_matches.length then { r with location_matches := some loc_matches.length }
  else r

/-- The body of `process_new_source`'s loop for one row (lines 178-208).
Each block runs only under its `if <column> and <column> in row` guard. -/
def process_row (idx : NameIndex) (addresses : List AddressRow)
    (name_column location_column : Option (List Char)) (i : Nat) (row : Row) :
    SourceResult :=
  let r0 := initResult i
  let r1 :=
    if strTruthy name_column && rowHasCol row (name_column.getD []) then
      name_verdict idx (rowGet row (name_column.getD [])) r0
    else r0
  if strTruthy location_column && rowHasCol row (location_column.getD []) then
    location_update addresses (rowGet row (location_column.getD [])) r1
  else r1

/-- `process_new_source` (lines 165-210) over an already-tabular source
(`data.iterrows()` yields positions 0,1,… for a default index). -/
def process_new_source (idx : NameIndex) (addresses : List AddressRow)
    (data : List Row) (name_column location_column : Option (List Char)) :
    List SourceResult :=
  data.enum.map (fun p => process_row idx addresses name_column location_column p.1 p.2)

end DIT

namespace DIT

/-! ## Library-style lemmas about the dict model -/

theorem dictGet_eq_some_of_mem {idx : NameIndex} {k : List Char} {u : Int}
    (hnd : (idx.map Prod.fst).Nodup) (hmem : (k, u) ∈ idx) :
    dictGet idx k = some u := by
  induction idx with
  | nil => cases hmem
  | cons p ps ih =>
    simp only [List.map_cons, List.nodup_cons, List.mem_map] at hnd
    rcases List.mem_cons.mp hmem with h | h
    · subst h
      simp [dictGet]
    · have hne : p.1 ≠ k := by
        intro he
        exact hnd.1 ⟨(k, u), h, by simp [he]⟩
      have := ih hnd.2 h
      simp only [dictGet] at this ⊢
      rw [List.find?_cons_of_neg _ (by simpa using hne)]
      exact this

theorem dictGet_eq_none {idx : NameIndex} {k : List Char}
    (h : ∀ p ∈ idx, p.1 ≠ k) : dictGet idx k = none := by
  unfold dictGet
  rw [List.find?_eq_none.mpr]
  · rfl
  · intro p hp
    simpa using h p hp

theorem fuzzy_match_eq_nil {idx : NameIndex} {name : Option (List Char)}
    {threshold : Nat}
    (h : ∀ p ∈ idx, fuzz_ratio (normalize_name name) p.1 < threshold) :
    fuzzy_match idx name threshold = [] := by
  have hfil : (idx.map (candidate name)).filter
      (fun m => threshold ≤ m.match_score) = [] := by
    rw [List.filter_eq_nil_iff]
    intro m hm
    rcases List.mem_map.mp hm with ⟨p, hp, rfl⟩
    simpa [candidate] using Nat.not_le.mpr (h p hp)
  simp only [fuzzy_match, hfil]
  rfl

/-- C4: for every name whose normalized form is present verbatim as a key of
the index, `exact_match` returns that key's uid; for a name whose normalized
form matches no key (in particular one with zero overlap with any entry),
`exact_match` returns `None`; and neither matcher raises on unmatched input —
absence is `None` for `exact_match` and the empty list for `fuzzy_match`. -/
theorem C4_exact_match_contract (idx : NameIndex) (name : Option (List Char)) :
    ((idx.map Prod.fst).Nodup →
      ∀ u : Int, (normalize_name name, u) ∈ idx → exact_match idx name = some u) ∧
    ((∀ p ∈ idx, p.1 ≠ normalize_name name) → exact_match idx name = none) ∧
    (∀ threshold : Nat,
      (∀ p ∈ idx, fuzz_ratio (normalize_name name) p.1 < threshold) →
      fuzzy_match idx name threshold = []) := by
  refine ⟨fun hnd u hmem => ?_, fun h => ?_, fun t h => ?_⟩
  · exact dictGet_eq_some_of_mem hnd hmem
  · exact dictGet_eq_none h
  · exact fuzzy_match_eq_nil h

theorem C4_exact_match_contract_witness :
    exact_match [("JANE DOE".data, 42)] (some "Dr. Jane Doe".data) = some 42 ∧
    exact_match [("JANE DOE".data, 42)] (some "Zzz".data) = none ∧
    fuzzy_match [("JANE DOE".data, 42)] (some "Zzz".data) 85 = [] := by
  refine ⟨(C4_exact_match_contract [("JANE DOE".data, 42)] (some "Dr. Jane Doe".data)).1
      (by decide) 42 ?_,
    (C4_exact_match_contract [("JANE DOE".data, 42)] (some "Zzz".data)).2.1 ?_,
    (C4_exact_match_contract [("JANE DOE".data, 42)] (some "Zzz".data)).2.2 85 ?_⟩
  · simp +decide [normalize_name, collapseWs, removeHonorifics, splitWs, joinSp,
      pyUpper, honorifics, dropDot, isWordChar, isPySpace]
  · simp +decide [normalize_name, collapseWs, removeHonorifics, splitWs, joinSp,
      pyUpper, honorifics, dropDot, isWordChar, isPySpace]
  · simp +decide [normalize_name, collapseWs, removeHonorifics, splitWs, joinSp,
      pyUpper, honorifics, dropDot, isWordChar, isPySpace, fuzz_ratio, indelCost]

/-- C6: for a uid present in the Entity table, `get_entity_profile` returns a
profile whose alias, address and id collections are exactly the rows of the
respective tables with that `entity_uid` (and whose entity is the first
matching Entity row); for a uid absent from the Entity table it returns
`None`, regardless of orphaned related rows. -/
theorem C6_get_profile_contract (T : Tables) (uid : Int) :
    ((∃ e ∈ T.entities, e.uid = uid) →
      ∃ p, get_entity_profile T uid = some p ∧
        p.uid = uid ∧
        (p.basic_info ∈ T.entities ∧ p.basic_info.uid = uid) ∧
        p.aliases = T.aliases.filter (fun a => a.entity_uid == uid) ∧
        p.addresses = T.addresses.filter (fun a => a.entity_uid == uid) ∧
        p.ids = T.ids.filter (fun i => i.entity_uid == uid)) ∧
    ((∀ e ∈ T.entities, e.uid ≠ uid) → get_entity_profile T uid = none) := by
  constructor
  · rintro ⟨e, he, huid⟩
    unfold get_entity_profile
    have hne : T.entities.filter (fun e => e.uid == uid) ≠ [] := by
      intro hnil
      have : e ∈ T.entities.filter (fun e => e.uid == uid) := by
        rw [List.mem_filter]
        exact ⟨he, by simp [huid]⟩
      rw [hnil] at this
      cases this
    rcases hfe : T.entities.filter (fun e => e.uid == uid) with _ | ⟨e0, es⟩
    · exact absurd hfe hne
    · rw [hfe]
      refine ⟨_, rfl, rfl, ?_, rfl, rfl, rfl⟩
      have : e0 ∈ T.entities.filter (fun e => e.uid == uid) := by
        rw [hfe]; exact List.mem_cons_self e0 es
      rw [List.mem_filter] at this
      exact ⟨this.1, by simpa using this.2⟩
  · intro h
    unfold get_entity_profile
    have : T.entities.filter (fun e => e.uid == uid) = [] := by
      rw [List.filter_eq_nil_iff]
      intro e he
      simpa using h e he
    rw [this]

theorem C6_get_profile_contract_witness :
    (get_entity_profile
      { entities := [{ uid := 5, sdn_type := none, first_name := none,
                       last_name := "X".data, title := none, remarks := none }]
        aliases := [{ entity_uid := 5, aka_uid := 1, type := none, category := none,
                      first_name := none, last_name := "Y".data },
                    { entity_uid := 6, aka_uid := 2, type := none, category := none,
                      first_name := none, last_name := "Z".data }]
        addresses := []
        ids := [] } 5).isSome = true ∧
    get_entity_profile
      { entities := [{ uid := 5, sdn_type := none, first_name := none,
                       last_name := "X".data, title := none, remarks := none }]
        aliases := [{ entity_uid := 7, aka_uid := 1, type := none, category := none,
                      first_name := none, last_name := "Y".data }]
        addresses := []
        ids := [] } 7 = none := by
  constructor
  · rcases (C6_get_profile_contract
      { entities := [{ uid := 5, sdn_type := none, first_name := none,
                       last_name := "X".data, title := none, remarks := none }]
        aliases := [{ entity_uid := 5, aka_uid := 1, type := none, category := none,
                      first_name := none, last_name := "Y".data },
                    { entity_uid := 6, aka_uid := 2, type := none, category := none,
                      first_name := none, last_name := "Z".data }]
        addresses := []
        ids := [] } 5).1 (by simp) with ⟨p, hp, -⟩
    rw [hp]
    rfl
  · exact (C6_get_profile_contract _ 7).2 (by simp)

end DIT

namespace DIT

/-! ## Structural lemmas about the batch drivers -/

theorem batch_row_map_input (idx : NameIndex) (t : Nat) (n : Option (List Char)) :
    (batch_row idx true t n).map (fun r => r.input_name) = [n] := by
  simp only [batch_row, if_true]
  split
  · rfl
  · split <;> rfl

theorem name_verdict_source_row (idx : NameIndex) (n : Option (List Char)) (r : SourceResult) :
    (name_verdict idx n r).source_row = r.source_row := by
  dsimp only [name_verdict]
  split
  · rfl
  · split <;> rfl

theorem name_verdict_location (idx : NameIndex) (n : Option (List Char)) (r : SourceResult) :
    (name_verdict idx n r).location_matches = r.location_matches := by
  dsimp only [name_verdict]
  split
  · rfl
  · split <;> rfl

theorem location_update_source_row (addrs : List AddressRow) (loc : Option (List Char))
    (r : SourceResult) : (location_update addrs loc r).source_row = r.source_row := by
  dsimp only [location_update]
  split <;> rfl

theorem process_row_source_row (idx : NameIndex) (addrs : List AddressRow)
    (nc lc : Option (List Char)) (i : Nat) (row : Row) :
    (process_row idx addrs nc lc i row).source_row = i := by
  dsimp only [process_row]
  split
  · rw [location_update_source_row]
    split
    · rw [name_verdict_source_row]
      rfl
    · rfl
  · split
    · rw [name_verdict_source_row]
      rfl
    · rfl

theorem process_row_skip_name (idx : NameIndex) (addrs : List AddressRow)
    (nc : List Char) (i : Nat) (row : Row) (hmiss : rowHasCol row nc = false) :
    process_row idx addrs (some nc) none i row = initResult i := by
  dsimp only [process_row]
  rw [if_neg (by simp [strTruthy]), if_neg (by simp [hmiss])]

theorem process_row_no_loc (idx : NameIndex) (addrs : List AddressRow)
    (nc : Option (List Char)) (i : Nat) (row : Row) :
    process_row idx addrs nc none i row =
      (if strTruthy nc && rowHasCol row (nc.getD []) then
        name_verdict idx (rowGet row (nc.getD [])) (initResult i)
      else initResult i) := by
  dsimp only [process_row]
  rw [if_neg (by simp [strTruthy])]

theorem process_row_with_loc (idx : NameIndex) (addrs : List AddressRow)
    (nc : Option (List Char)) (lc : List Char) (i : Nat) (row : Row)
    (hlc : lc ≠ []) (hhas : rowHasCol row lc = true) :
    process_row idx addrs nc (some lc) i row =
      location_update addrs (rowGet row lc) (process_row idx addrs nc none i row) := by
  rw [process_row_no_loc]
  have hcond : (strTruthy (some lc) && rowHasCol row ((some lc).getD [])) = true := by
    simp [strTruthy, hhas, hlc]
  dsimp only [process_row]
  rw [if_pos hcond]
  rfl

theorem process_row_none_location (idx : NameIndex) (addrs : List AddressRow)
    (nc : Option (List Char)) (i : Nat) (row : Row) :
    (process_row idx addrs nc none i row).location_matches = none := by
  rw [process_row_no_loc]
  split
  · rw [name_verdict_location]
    rfl
  · rfl

theorem fuzzy_match_score_ge {idx : NameIndex} {name : Option (List Char)} {t : Nat}
    {r : MatchResult} (hr : r ∈ fuzzy_match idx name t) : t ≤ r.match_score := by
  unfold fuzzy_match at hr
  have hf := (List.mem_insertionSort scoreGe).mp hr
  have := (List.mem_filter.mp hf).2
  exact of_decide_eq_true this

/-! ## Lemmas characterizing the dict model under folds -/

theorem findKey_cons_pos {k : List Char} {p : List Char × Int} (ps : NameIndex)
    (hp : (p.1 == k) = true) :
    List.find? (fun q => q.1 == k) (p :: ps) = some p :=
  List.find?_cons_of_pos ps hp

theorem findKey_cons_neg {k : List Char} {p : List Char × Int} (ps : NameIndex)
    (hp : ¬((p.1 == k) = true)) :
    List.find? (fun q => q.1 == k) (p :: ps) = List.find? (fun q => q.1 == k) ps :=
  List.find?_cons_of_neg ps hp

theorem find?_replace_eq (m : NameIndex) (k : List Char) (v : Int) :
    (m.map (fun p => if p.1 == k then (k, v) else p)).find? (fun p => p.1 == k) =
      (m.find? (fun p => p.1 == k)).map (fun _ => (k, v)) := by
  induction m with
  | nil => rfl
  | cons p ps ih =>
    by_cases hp : p.1 == k
    · rw [List.map_cons, if_pos hp, findKey_cons_pos _ (by simp),
        findKey_cons_pos _ hp]
      rfl
    · rw [List.map_cons, if_neg hp, findKey_cons_neg _ hp,
        findKey_cons_neg _ hp, ih]

theorem find?_replace_ne (m : NameIndex) (k' k : List Char) (v : Int)
    (hkk : k' ≠ k) :
    (m.map (fun p => if p.1 == k' then (k', v) else p)).find? (fun p => p.1 == k) =
      m.find? (fun p => p.1 == k) := by
  induction m with
  | nil => rfl
  | cons p ps ih =>
    by_cases hp : p.1 == k'
    · have hpk : ¬(p.1 == k) = true := by
        intro hc
        exact hkk ((eq_of_beq hp).symm.trans (eq_of_beq hc))
      rw [List.map_cons, if_pos hp, findKey_cons_neg _ (by simpa using hkk),
        findKey_cons_neg _ hpk, ih]
    · rw [List.map_cons, if_neg hp]
      by_cases hpk : p.1 == k
      · rw [findKey_cons_pos _ hpk, findKey_cons_pos _ hpk]
      · rw [findKey_cons_neg _ hpk, findKey_cons_neg _ hpk, ih]

theorem dictGet_dictInsert (m : NameIndex) (k' k : List Char) (v : Int) :
    dictGet (dictInsert m k' v) k = if k' == k then some v else dictGet m k := by
  unfold dictInsert dictGet
  by_cases hkk : k' = k
  · subst hkk
    simp only [beq_self_eq_true, if_true]
    split
    · rw [find?_replace_eq]
      rename_i hany
      rcases hfind : m.find? (fun q => q.1 == k') with _ | q
      · rw [List.find?_eq_none] at hfind
        rcases List.any_eq_true.mp hany with ⟨p, hp, hpk⟩
        exact absurd hpk (by simpa using hfind p hp)
      · rw [hfind]
        rfl
    · rename_i hnany
      rw [List.find?_append]
      rcases hfind : m.find? (fun q => q.1 == k') with _ | q
      · rw [hfind, Option.none_or, findKey_cons_pos _ (by simp)]
        rfl
      · exact absurd (List.any_eq_true.mpr
          ⟨q, List.mem_of_find?_eq_some hfind, List.find?_some hfind⟩) hnany
  · have hkk' : ¬((k' == k) = true) := by simpa using hkk
    rw [if_neg hkk']
    split
    · rw [find?_replace_ne _ _ _ _ hkk]
    · rw [List.find?_append]
      rw [show List.find? (fun p => p.1 == k) [(k', v)] = none from by simp [hkk]]
      rw [Option.or_none]

theorem dictGet_foldl {β : Type} (key : β → List Char) (val : β → Int)
    (rows : List β) (m0 : NameIndex) (k : List Char) :
    dictGet (rows.foldl (fun m r => dictInsert m (key r) (val r)) m0) k =
      (match rows.reverse.find? (fun r => key r == k) with
       | some r => some (val r)
       | none => dictGet m0 k) := by
  induction rows generalizing m0 with
  | nil => rfl
  | cons r rs ih =>
    rw [List.foldl_cons, ih, List.reverse_cons, List.find?_append]
    rcases hfind : rs.reverse.find? (fun r => key r == k) with _ | q
    · rw [Option.none_or]
      by_cases hk : (key r == k) = true
      · rw [show List.find? (fun r => key r == k) [r] = some r from by simp [hk]]
        rw [dictGet_dictInsert, if_pos hk]
      · rw [show List.find? (fun r => key r == k) [r] = none from by simp [hk]]
        rw [dictGet_dictInsert, if_neg hk]
    · rfl

end DIT

namespace DIT

theorem dictGet_foldl_or {β : Type} (key : β → List Char) (val : β → Int)
    (rows : List β) (m0 : NameIndex) (k : List Char) :
    dictGet (rows.foldl (fun m r => dictInsert m (key r) (val r)) m0) k =
      ((rows.reverse.find? (fun r => key r == k)).map val).or (dictGet m0 k) := by
  induction rows generalizing m0 with
  | nil => simp
  | cons r rs ih =>
    rw [List.foldl_cons, ih, List.reverse_cons, List.find?_append]
    rcases hfind : rs.reverse.find? (fun r => key r == k) with _ | q
    · rw [Option.map_none', Option.none_or, dictGet_dictInsert]
      by_cases hk : (key r == k) = true
      · rw [show List.find? (fun r => key r == k) [r] = some r from by simp [hk],
          if_pos hk]
        rfl
      · rw [show List.find? (fun r => key r == k) [r] = none from by simp [hk],
          if_neg hk]
        rfl
    · rw [Option.or_some]
      rfl

theorem fuzzy_match_eq_sort (idx : NameIndex) (name : Option (List Char)) (t : Nat) :
    fuzzy_match idx name t =
      ((idx.map (candidate name)).filter
        (fun m => t ≤ m.match_score)).insertionSort scoreGe := rfl

/-! ## Claim C1 -/

/-- Claim C1 fails as stated: the index construction applies only
`.strip().upper()` to the composed name, *not* the Normalizer's
canonicalization — an entity whose name contains an honorific is indexed
under `"DR WHO"` while the normalizing construction the claim describes
would index it under `"WHO"`. -/
theorem C1_counterexample :
    build_name_index
      [{ uid := 7, sdn_type := none, first_name := some "DR".data,
         last_name := "WHO".data, title := none, remarks := none }] [] =
      [("DR WHO".data, 7)] ∧
    build_name_index_spec
      [{ uid := 7, sdn_type := none, first_name := some "DR".data,
         last_name := "WHO".data, title := none, remarks := none }] [] =
      [("WHO".data, 7)] ∧
    build_name_index
      [{ uid := 7, sdn_type := none, first_name := some "DR".data,
         last_name := "WHO".data, title := none, remarks := none }] [] ≠
    build_name_index_spec
      [{ uid := 7, sdn_type := none, first_name := some "DR".data,
         last_name := "WHO".data, title := none, remarks := none }] [] := by
  refine ⟨by decide, ?_, ?_⟩
  · simp +decide [build_name_index_spec, dictInsert, normalize_name, collapseWs,
      removeHonorifics, splitWs, joinSp, pyUpper, pyStrip, honorifics, dropDot,
      isWordChar, isPySpace]
  · have h1 : build_name_index
      [{ uid := 7, sdn_type := none, first_name := some "DR".data,
         last_name := "WHO".data, title := none, remarks := none }] [] =
      [("DR WHO".data, 7)] := by decide
    have h2 : build_name_index_spec
      [{ uid := 7, sdn_type := none, first_name := some "DR".data,
         last_name := "WHO".data, title := none, remarks := none }] [] =
      [("WHO".data, 7)] := by
      simp +decide [build_name_index_spec, dictInsert, normalize_name, collapseWs,
        removeHonorifics, splitWs, joinSp, pyUpper, pyStrip, honorifics, dropDot,
        isWordChar, isPySpace]
    rw [h1, h2]
    decide

/-- C1 (amended): the index records each row under the `.strip().upper()` of
the composed `"{first_name} {last_name}"` (the key `indexKey`, with no
honorific stripping or inner-whitespace collapse); entities are processed
first, then aliases, with later insertions overwriting earlier ones — so a
lookup returns the uid of the *last* alias whose key matches, else the uid
of the last matching entity, else absent. -/
theorem C1_index_characterization (entities : List EntityRow) (aliases : List AliasRow)
    (k : List Char) :
    dictGet (build_name_index entities aliases) k =
      ((aliases.reverse.find? (fun a => indexKey a.first_name a.last_name == k)).map
          (fun a => a.entity_uid)).or
        ((entities.reverse.find? (fun e => indexKey e.first_name e.last_name == k)).map
          (fun e => e.uid)) := by
  unfold build_name_index
  rw [dictGet_foldl_or, dictGet_foldl_or]
  rw [show dictGet [] k = none from rfl, Option.or_none]

/-! ## Claim C2 -/

/-- Claim C2 fails as stated: with fuzzy matching disabled,
`batch_search_names` appends nothing for a name that misses the exact
lookup, so one input row yields zero verdicts. -/
theorem C2_counterexample :
    (batch_search_names [] [some "X".data] false 85).length = 0 ∧
    ([some "X".data] : List (Option (List Char))).length = 1 := ⟨rfl, rfl⟩

/-- C2 (amended): with fuzzy matching enabled (the default),
`batch_search_names` produces exactly one verdict per input row, in input
order (the i-th output's `input_name` is the i-th input); and
`process_new_source` always produces exactly one result row per input row,
in input order (`source_row` runs 0,1,…).  With `fuzzy=False`, rows failing
the exact lookup are silently dropped (see the counterexample). -/
theorem C2_batch_order :
    (∀ (idx : NameIndex) (names_list : List (Option (List Char))) (threshold : Nat),
      (batch_search_names idx names_list true threshold).map (fun r => r.input_name) =
        names_list) ∧
    (∀ (idx : NameIndex) (addresses : List AddressRow) (data : List Row)
      (nc lc : Option (List Char)),
      (process_new_source idx addresses data nc lc).map (fun r => r.source_row) =
        List.range data.length) := by
  constructor
  · intro idx names t
    induction names with
    | nil => rfl
    | cons n ns ih =>
      simp only [batch_search_names, List.flatMap_cons, List.map_append] at ih ⊢
      rw [batch_row_map_input, ih]
      rfl
  · intro idx addrs data nc lc
    unfold process_new_source
    rw [List.map_map]
    have hfun : ((fun r => r.source_row) ∘ fun p : Nat × Row =>
        process_row idx addrs nc lc p.1 p.2) = fun p : Nat × Row => p.1 := by
      funext p
      exact process_row_source_row idx addrs nc lc p.1 p.2
    rw [hfun]
    have h := List.enumFrom_map_fst 0 data
    simp only [List.enum, List.range_eq_range']
    exact h

/-! ## Claim C3 -/

/-- Claim C3 fails as stated: an exact hit in `process_new_source` records
verdict `exact` and confidence `high` but *no* score at all (the claim says
score 100 is recorded). -/
theorem C3_counterexample :
    process_new_source [("AB".data, 5)] [] [[("name".data, some "ab".data)]]
      (some "name".data) none =
      [{ source_row := 0
         ofac_match := some "exact".data
         ofac_uid := some 5
         match_score := none
         confidence := some "high".data
         location_matches := none }] := by
  simp +decide [process_new_source, process_row, name_verdict, exact_match, dictGet,
    normalize_name, collapseWs, removeHonorifics, splitWs, joinSp, pyUpper, pyStrip,
    honorifics, dropDot, isWordChar, isPySpace, strTruthy, rowHasCol, rowGet,
    uidTruthy, initResult]

/-- C3 (amended): for a row whose name column is present, the verdict
follows the three-step algorithm with one correction — an exact (truthy)
hit yields verdict `exact` with confidence `high` and *no recorded score*;
otherwise the top fuzzy match at the fixed threshold 80 yields verdict
`fuzzy` with its score, confidence `medium` when the score is above 85 and
`low` when it is in [80, 85]; otherwise verdict `none` with confidence
`new_entity`. -/
theorem C3_row_verdicts (idx : NameIndex) (addrs : List AddressRow) (nc : List Char)
    (i : Nat) (row : Row) (hnc : nc ≠ []) (hhas : rowHasCol row nc = true) :
    (uidTruthy (exact_match idx (rowGet row nc)) = true →
      process_row idx addrs (some nc) none i row =
        { source_row := i
          ofac_match := some "exact".data
          ofac_uid := exact_match idx (rowGet row nc)
          match_score := none
          confidence := some "high".data
          location_matches := none }) ∧
    (uidTruthy (exact_match idx (rowGet row nc)) = false →
      ∀ m ms, fuzzy_match idx (rowGet row nc) 80 = m :: ms →
        80 ≤ m.match_score ∧
        process_row idx addrs (some nc) none i row =
          { source_row := i
            ofac_match := some "fuzzy".data
            ofac_uid := some m.uid
            match_score := some m.match_score
            confidence := some (if 85 < m.match_score then "medium".data else "low".data)
            location_matches := none }) ∧
    (uidTruthy (exact_match idx (rowGet row nc)) = false →
      fuzzy_match idx (rowGet row nc) 80 = [] →
      process_row idx addrs (some nc) none i row =
        { source_row := i
          ofac_match := some "none".data
          ofac_uid := none
          match_score := none
          confidence := some "new_entity".data
          location_matches := none }) := by
  have hcond : (strTruthy (some nc) && rowHasCol row ((some nc).getD [])) = true := by
    simp [strTruthy, hhas, hnc]
  refine ⟨fun hex => ?_, fun hnex m ms hfz => ?_, fun hnex hfz => ?_⟩
  · rw [process_row_no_loc, if_pos hcond]
    dsimp only [name_verdict, Option.getD_some]
    rw [if_pos hex]
    rfl
  · refine ⟨fuzzy_match_score_ge (hfz ▸ List.mem_cons_self m ms), ?_⟩
    rw [process_row_no_loc, if_pos hcond]
    dsimp only [name_verdict, Option.getD_some]
    rw [if_neg (by simp [hnex]), hfz]
    rfl
  · rw [process_row_no_loc, if_pos hcond]
    dsimp only [name_verdict, Option.getD_some]
    rw [if_neg (by simp [hnex]), hfz]
    rfl

/-- Witness for C3 at a concrete index and row: an exact hit. -/
theorem C3_row_verdicts_witness :
    process_row [("AB".data, 5)] [] (some "name".data) none 0
      [("name".data, some "ab".data)] =
      { source_row := 0
        ofac_match := some "exact".data
        ofac_uid := exact_match [("AB".data, 5)]
          (rowGet [("name".data, some "ab".data)] "name".data)
        match_score := none
        confidence := some "high".data
        location_matches := none } :=
  (C3_row_verdicts [("AB".data, 5)] [] "name".data 0
    [("name".data, some "ab".data)] (by decide) (by decide)).1
    (by simp +decide [exact_match, dictGet, rowGet, uidTruthy, normalize_name,
      collapseWs, removeHonorifics, splitWs, joinSp, pyUpper, honorifics, dropDot,
      isWordChar, isPySpace])

/-! ## Claim C5 -/

/-- C5: `fuzzy_match` returns exactly the index entries scoring at least the
threshold (every result scores ≥ threshold; the result is a permutation of
the filtered scored entries), ordered by descending score with ties kept in
index iteration order (the results of any fixed score equal the filtered
entries of that score in index order), and raising the threshold is
monotonic: every result at a higher threshold also appears at a lower one. -/
theorem C5_fuzzy_contract (idx : NameIndex) (name : Option (List Char)) (t : Nat) :
    (∀ r ∈ fuzzy_match idx name t, t ≤ r.match_score) ∧
    (fuzzy_match idx name t).Perm
      ((idx.map (candidate name)).filter (fun m => t ≤ m.match_score)) ∧
    (fuzzy_match idx name t).Pairwise scoreGe ∧
    (∀ s : Nat,
      (fuzzy_match idx name t).filter (fun m => m.match_score == s) =
        ((idx.map (candidate name)).filter (fun m => t ≤ m.match_score)).filter
          (fun m => m.match_score == s)) ∧
    (∀ t2 : Nat, t ≤ t2 → ∀ r ∈ fuzzy_match idx name t2, r ∈ fuzzy_match idx name t) := by
  refine ⟨fun r hr => fuzzy_match_score_ge hr, ?_, ?_, fun s => ?_, fun t2 ht r hr => ?_⟩
  · rw [fuzzy_match_eq_sort]
    exact List.perm_insertionSort scoreGe _
  · rw [fuzzy_match_eq_sort]
    exact List.sorted_insertionSort scoreGe _
  · have hpair : (((idx.map (candidate name)).filter (fun m => t ≤ m.match_score)).filter
        (fun m => m.match_score == s)).Pairwise scoreGe := by
      apply List.pairwise_of_forall_mem_list
      intro a ha b hb
      have ha' : a.match_score = s := by simpa using (List.mem_filter.mp ha).2
      have hb' : b.match_score = s := by simpa using (List.mem_filter.mp hb).2
      unfold scoreGe
      omega
    have hsub : List.Sublist
        (((idx.map (candidate name)).filter (fun m => t ≤ m.match_score)).filter
          (fun m => m.match_score == s)) (fuzzy_match idx name t) := by
      rw [fuzzy_match_eq_sort]
      exact List.sublist_insertionSort hpair (List.filter_sublist _)
    have hsub2 : List.Sublist
        (((idx.map (candidate name)).filter (fun m => t ≤ m.match_score)).filter
          (fun m => m.match_score == s))
        ((fuzzy_match idx name t).filter (fun m => m.match_score == s)) := by
      have h := hsub.filter (fun m => m.match_score == s)
      rwa [List.filter_eq_self.mpr (fun a ha => (List.mem_filter.mp ha).2)] at h
    have hperm : ((fuzzy_match idx name t).filter (fun m => m.match_score == s)).Perm
        (((idx.map (candidate name)).filter (fun m => t ≤ m.match_score)).filter
          (fun m => m.match_score == s)) := by
      rw [fuzzy_match_eq_sort]
      exact (List.perm_insertionSort scoreGe _).filter _
    exact (hsub2.eq_of_length hperm.length_eq.symm).symm
  · rw [fuzzy_match_eq_sort] at hr ⊢
    rw [List.mem_insertionSort] at hr ⊢
    rw [List.mem_filter] at hr ⊢
    exact ⟨hr.1, by
      have hs := of_decide_eq_true hr.2
      exact decide_eq_true (Nat.le_trans ht hs)⟩

/-- Witness for C5: the monotonicity part at concrete thresholds 80 ≤ 90 on
a concrete two-entry index. -/
theorem C5_fuzzy_contract_witness :
    ({ uid := 7, ofac_name := "JON SMITH".data,
       input_name := some "Jon Smith".data, match_score := 100 } : MatchResult) ∈
      fuzzy_match [("JON SMITH".data, 7), ("JOHN SMITH".data, 42)]
        (some "Jon Smith".data) 80 :=
  (C5_fuzzy_contract [("JON SMITH".data, 7), ("JOHN SMITH".data, 42)]
    (some "Jon Smith".data) 80).2.2.2.2 90 (by decide) _
    (by simp +decide [fuzzy_match, candidate, fuzz_ratio, indelCost, normalize_name,
      collapseWs, removeHonorifics, splitWs, joinSp, pyUpper, honorifics, dropDot,
      isWordChar, isPySpace])

/-! ## Claim C7 -/

/-- Claim C7 fails in its missing-column half: a requested name column that
is absent from the supplied row is silently skipped — `process_new_source`
returns a normal result row carrying only `source_row`, with no error and no
match fields. -/
theorem C7_counterexample :
    process_new_source [] [] [[("other".data, some "x".data)]] (some "name".data) none =
      [{ source_row := 0
         ofac_match := none
         ofac_uid := none
         match_score := none
         confidence := none
         location_matches := none }] := rfl

/-- Either batch column argument, when requested but absent from the row,
leaves that block of the loop body unexecuted: the row resolves exactly as
if the column had not been requested.  Name-column version, for every
location-column setting. -/
theorem process_row_skip_name_any (idx : NameIndex) (addrs : List AddressRow)
    (nc : List Char) (lc : Option (List Char)) (i : Nat) (row : Row)
    (hmiss : rowHasCol row nc = false) :
    process_row idx addrs (some nc) lc i row =
      process_row idx addrs none lc i row := by
  dsimp only [process_row]
  rw [if_neg (show ¬(strTruthy (some nc) &&
        rowHasCol row ((some nc).getD [])) = true by simp [hmiss]),
    if_neg (show ¬(strTruthy (none : Option (List Char)) &&
        rowHasCol row ((none : Option (List Char)).getD [])) = true by simp [strTruthy])]

/-- Location-column version, for every name-column setting. -/
theorem process_row_skip_loc_any (idx : NameIndex) (addrs : List AddressRow)
    (nc : Option (List Char)) (lc : List Char) (i : Nat) (row : Row)
    (hmiss : rowHasCol row lc = false) :
    process_row idx addrs nc (some lc) i row =
      process_row idx addrs nc none i row := by
  dsimp only [process_row]
  rw [if_neg (show ¬(strTruthy (some lc) &&
        rowHasCol row ((some lc).getD [])) = true by simp [hmiss]),
    if_neg (show ¬(strTruthy (none : Option (List Char)) &&
        rowHasCol row ((none : Option (List Char)).getD [])) = true by simp [strTruthy])]

/-- C7 (amended): a non-numeric uid string passed to profile lookup fails
fast — `int(uid)` raises and no partial result is produced.  A requested
name or location column that is missing from a supplied source row is *not*
reported: the corresponding block is silently skipped, so the row resolves
exactly as if that column had never been requested (its fields stay
absent), and when both requested columns are missing the result row carries
only `source_row`. -/
theorem C7_caller_contract :
    (∀ (T : Tables) (s : List Char), pyInt s = none →
      get_entity_profile_checked T (Sum.inr s) = Except.error ()) ∧
    (∀ (idx : NameIndex) (addrs : List AddressRow) (nc : List Char)
      (lc : Option (List Char)) (i : Nat) (row : Row),
      rowHasCol row nc = false →
      process_row idx addrs (some nc) lc i row =
        process_row idx addrs none lc i row) ∧
    (∀ (idx : NameIndex) (addrs : List AddressRow) (nc : Option (List Char))
      (lc : List Char) (i : Nat) (row : Row),
      rowHasCol row lc = false →
      process_row idx addrs nc (some lc) i row =
        process_row idx addrs nc none i row) ∧
    (∀ (idx : NameIndex) (addrs : List AddressRow) (nc lc : List Char)
      (i : Nat) (row : Row),
      rowHasCol row nc = false → rowHasCol row lc = false →
      process_row idx addrs (some nc) (some lc) i row = initResult i) := by
  refine ⟨fun T s hbad => ?_, process_row_skip_name_any,
    process_row_skip_loc_any, fun idx addrs nc lc i row hn hl => ?_⟩
  · dsimp only [get_entity_profile_checked]
    rw [hbad]
  · rw [process_row_skip_loc_any idx addrs (some nc) lc i row hl,
      process_row_skip_name idx addrs nc i row hn]

/-- Witness for C7 at concrete inputs: a non-numeric uid string; a missing
location column while the name column hits; a missing name column while a
location column is requested; and both requested columns missing. -/
theorem C7_caller_contract_witness :
    get_entity_profile_checked
      { entities := [], aliases := [], addresses := [], ids := [] }
      (Sum.inr "12x".data) = Except.error () ∧
    process_row [("AB".data, 5)] [] (some "name".data) (some "loc".data) 0
      [("name".data, some "ab".data)] =
      process_row [("AB".data, 5)] [] (some "name".data) none 0
        [("name".data, some "ab".data)] ∧
    process_row [] [] (some "name".data) (some "city".data) 0
      [("loc".data, some "x".data)] =
      process_row [] [] none (some "city".data) 0 [("loc".data, some "x".data)] ∧
    process_row [] [] (some "name".data) (some "loc".data) 0
      [("other".data, some "x".data)] = initResult 0 :=
  ⟨C7_caller_contract.1 { entities := [], aliases := [], addresses := [], ids := [] }
      "12x".data (by decide),
   C7_caller_contract.2.2.1 [("AB".data, 5)] [] (some "name".data) "loc".data 0
      [("name".data, some "ab".data)] (by decide),
   C7_caller_contract.2.1 [] [] "name".data (some "city".data) 0
      [("loc".data, some "x".data)] (by decide),
   C7_caller_contract.2.2.2 [] [] "name".data "loc".data 0
      [("other".data, some "x".data)] (by decide) (by decide)⟩

/-! ## Claim C8 -/

/-- Claim C8 fails as stated: when the location lookup matches zero address
records the count is *not* attached (the field stays absent, not 0). -/
theorem C8_counterexample :
    process_new_source [] [] [[("loc".data, some "Colombia".data)]] none
      (some "loc".data) =
      [{ source_row := 0
         ofac_match := none
         ofac_uid := none
         match_score := none
         confidence := none
         location_matches := none }] ∧
    search_by_location [] (some "Colombia".data) none = [] := ⟨rfl, rfl⟩

/-- C8 (amended): for a row with the location column present, the
independent country-containment lookup runs against the Address table and
its match count is attached exactly when positive (absent on zero matches);
the name-match fields (`ofac_match`, `ofac_uid`, `match_score`,
`confidence`) are identical to those produced with no location column, so
the location signal never alters the name-match confidence. -/
theorem C8_location_contract (idx : NameIndex) (addrs : List AddressRow)
    (nc : Option (List Char)) (lc : List Char) (i : Nat) (row : Row)
    (hlc : lc ≠ []) (hhas : rowHasCol row lc = true) :
    ((search_by_location addrs (rowGet row lc) none).length = 0 →
      (process_row idx addrs nc (some lc) i row).location_matches = none) ∧
    (0 < (search_by_location addrs (rowGet row lc) none).length →
      (process_row idx addrs nc (some lc) i row).location_matches =
        some (search_by_location addrs (rowGet row lc) none).length) ∧
    (process_row idx addrs nc (some lc) i row).ofac_match =
      (process_row idx addrs nc none i row).ofac_match ∧
    (process_row idx addrs nc (some lc) i row).ofac_uid =
      (process_row idx addrs nc none i row).ofac_uid ∧
    (process_row idx addrs nc (some lc) i row).match_score =
      (process_row idx addrs nc none i row).match_score ∧
    (process_row idx addrs nc (some lc) i row).confidence =
      (process_row idx addrs nc none i row).confidence := by
  rw [process_row_with_loc idx addrs nc lc i row hlc hhas]
  dsimp only [location_update]
  refine ⟨fun h0 => ?_, fun hp => ?_, ?_, ?_, ?_, ?_⟩
  · rw [if_neg (by omega), process_row_none_location]
  · rw [if_pos hp]
  · split <;> rfl
  · split <;> rfl
  · split <;> rfl
  · split <;> rfl

/-- Witness for C8: one matching address (count attached) on a concrete
row and table. -/
theorem C8_location_contract_witness :
    (process_row []
      [{ entity_uid := 1, address_uid := 10, address1 := none, address2 := none,
         address3 := none, city := some "Bogota".data, state_province := none,
         postal_code := none, country := some "Colombia".data }]
      none (some "loc".data) 0 [("loc".data, some "Colombia".data)]).location_matches =
      some (search_by_location
        [{ entity_uid := 1, address_uid := 10, address1 := none, address2 := none,
           address3 := none, city := some "Bogota".data, state_province := none,
           postal_code := none, country := some "Colombia".data }]
        (rowGet [("loc".data, some "Colombia".data)] "loc".data) none).length :=
  (C8_location_contract []
    [{ entity_uid := 1, address_uid := 10, address1 := none, address2 := none,
       address3 := none, city := some "Bogota".data, state_province := none,
       postal_code := none, country := some "Colombia".data }]
    none "loc".data 0 [("loc".data, some "Colombia".data)]
    (by decide) (by decide)).2.1 (by decide)

/-! ## Claim C10 -/

/-- C10: both batch drivers test the exact-match uid with Python truthiness
(`if uid:`), so an index entry mapping a canonical name to uid 0 is treated
as a miss — the row falls through to fuzzy matching and is never reported
as an exact match. -/
theorem C10_falsy_uid (idx : NameIndex) (name : Option (List Char)) (t : Nat)
    (h : exact_match idx name = some 0) :
    (∀ r ∈ batch_search_names idx [name] true t, r.match_type ≠ "exact".data) ∧
    (∀ (addrs : List AddressRow) (nc : List Char) (i : Nat) (row : Row),
      nc ≠ [] → rowHasCol row nc = true → rowGet row nc = name →
      (process_row idx addrs (some nc) none i row).ofac_match ≠ some "exact".data) := by
  have hfalse : uidTruthy (exact_match idx name) = false := by
    rw [h]; rfl
  constructor
  · intro r hr
    simp only [batch_search_names, List.flatMap_cons, List.flatMap_nil,
      List.append_nil] at hr
    dsimp only [batch_row] at hr
    rw [hfalse] at hr
    simp only [Bool.false_eq_true, if_false, if_true] at hr
    split at hr <;> rcases List.mem_singleton.mp hr with rfl <;> simp
  · intro addrs nc i row hnc hhas hget
    have hcond : (strTruthy (some nc) && rowHasCol row ((some nc).getD [])) = true := by
      simp [strTruthy, hhas, hnc]
    rw [process_row_no_loc, if_pos hcond]
    dsimp only [name_verdict, Option.getD_some]
    rw [hget, hfalse]
    simp only [Bool.false_eq_true, if_false]
    split <;> simp

/-- Witness for C10: a concrete index mapping a canonical name to uid 0. -/
theorem C10_falsy_uid_witness :
    (∀ r ∈ batch_search_names [("AB".data, 0)] [some "ab".data] true 85,
      r.match_type ≠ "exact".data) ∧
    (∀ (addrs : List AddressRow) (nc : List Char) (i : Nat) (row : Row),
      nc ≠ [] → rowHasCol row nc = true → rowGet row nc = some "ab".data →
      (process_row [("AB".data, 0)] addrs (some nc) none i row).ofac_match ≠
        some "exact".data) :=
  C10_falsy_uid [("AB".data, 0)] (some "ab".data) 85
    (by simp +decide [exact_match, dictGet, normalize_name, collapseWs,
      removeHonorifics, splitWs, joinSp, pyUpper, honorifics, dropDot,
      isWordChar, isPySpace])

end DIT

namespace DIT

/-! ## Claim C9: machinery for idempotence of the normalizer -/

theorem toUpper_toUpper (c : Char) : c.toUpper.toUpper = c.toUpper := by
  unfold Char.toUpper
  by_cases h : c.toNat ≥ 97 ∧ c.toNat ≤ 122
  · rw [if_pos h]
    have hv : (Char.ofNat (c.toNat - 32)).toNat = c.toNat - 32 := by
      unfold Char.ofNat
      rw [dif_pos (Or.inl (by omega))]
      simp [Char.ofNatAux, Char.toNat, UInt32.ofNat', UInt32.toNat, BitVec.toNat_ofNatLt]
    rw [if_neg]
    rw [hv]
    omega
  · rw [if_neg h, if_neg h]

theorem isWordChar_false_of_isPySpace {c : Char} (h : isPySpace c = true) :
    isWordChar c = false := by
  simp only [isPySpace, Bool.or_eq_true, beq_iff_eq] at h
  rcases h with ((((h | h) | h) | h) | h) | h <;> subst h <;> decide

/-! takeWhile and dropWhile across an append whose right part starts with a
character failing the predicate -/

theorem headFails_dropWhile (p : Char → Bool) (l : List Char) :
    headFails p (l.dropWhile p) := by
  induction l with
  | nil => trivial
  | cons c cs ih =>
    by_cases hc : p c
    · rw [List.dropWhile_cons_of_pos hc]
      exact ih
    · rw [List.dropWhile_cons_of_neg hc]
      exact eq_false_of_ne_true hc

theorem takeWhile_append_headFails {p : Char → Bool} {b : List Char}
    (hb : headFails p b) (a : List Char) :
    (a ++ b).takeWhile p = a.takeWhile p := by
  induction a with
  | nil =>
    cases b with
    | nil => rfl
    | cons c cs =>
      simp only [List.nil_append, List.takeWhile_nil]
      rw [List.takeWhile_cons_of_neg]
      simp [headFails] at hb
      simp [hb]
  | cons c a' ih =>
    by_cases hc : p c
    · simp only [List.cons_append, List.takeWhile_cons_of_pos hc, ih]
    · simp only [List.cons_append, List.takeWhile_cons_of_neg hc]

theorem dropWhile_append_headFails {p : Char → Bool} {b : List Char}
    (hb : headFails p b) (a : List Char) :
    (a ++ b).dropWhile p = a.dropWhile p ++ b := by
  induction a with
  | nil =>
    cases b with
    | nil => rfl
    | cons c cs =>
      simp only [List.nil_append, List.dropWhile_nil]
      rw [List.dropWhile_cons_of_neg]
      simp [headFails] at hb
      simp [hb]
  | cons c a' ih =>
    by_cases hc : p c
    · simp only [List.cons_append, List.dropWhile_cons_of_pos hc, ih]
    · simp only [List.cons_append, List.dropWhile_cons_of_neg hc]

theorem takeWhile_all {p : Char → Bool} {l : List Char} (h : ∀ c ∈ l, p c = true) :
    l.takeWhile p = l := by
  induction l with
  | nil => rfl
  | cons c cs ih =>
    rw [List.takeWhile_cons_of_pos (h c (List.mem_cons_self c cs)),
      ih (fun d hd => h d (List.mem_cons_of_mem c hd))]

theorem dropWhile_all {p : Char → Bool} {l : List Char} (h : ∀ c ∈ l, p c = true) :
    l.dropWhile p = [] := by
  induction l with
  | nil => rfl
  | cons c cs ih =>
    rw [List.dropWhile_cons_of_pos (h c (List.mem_cons_self c cs)),
      ih (fun d hd => h d (List.mem_cons_of_mem c hd))]

/-! wordsOf lemmas -/

theorem wordsOf_cons_neg {c : Char} (cs : List Char) (h : ¬isWordChar c = true) :
    wordsOf (c :: cs) = wordsOf cs := by
  rw [wordsOf, if_neg h]

theorem wordsOf_append {b : List Char} (hb : headFails isWordChar b) (a : List Char) :
    wordsOf (a ++ b) = wordsOf a ++ wordsOf b := by
  induction a using wordsOf.induct with
  | case1 => simp [wordsOf]
  | case2 c cs h ih =>
    rw [List.cons_append, wordsOf, if_pos h]
    rw [show c :: (cs ++ b) = (c :: cs) ++ b from rfl]
    rw [takeWhile_append_headFails hb, dropWhile_append_headFails hb, ih]
    conv_rhs => rw [wordsOf, if_pos h]
    rw [List.cons_append]
  | case3 c cs h ih =>
    rw [List.cons_append, wordsOf_cons_neg _ h, ih, wordsOf_cons_neg _ h]

theorem wordsOf_all_word {w : List Char} (hne : w ≠ [])
    (hw : ∀ c ∈ w, isWordChar c = true) : wordsOf w = [w] := by
  cases w with
  | nil => exact absurd rfl hne
  | cons c w' =>
    rw [wordsOf, if_pos (hw c (List.mem_cons_self c w'))]
    rw [takeWhile_all hw, dropWhile_all hw]
    simp [wordsOf]

/-! splitWs and joinSp lemmas -/

theorem splitWs_chunks (s : List Char) :
    ∀ w ∈ splitWs s, w ≠ [] ∧ ∀ c ∈ w, isPySpace c = false := by
  induction s using splitWs.induct with
  | case1 =>
    intro w hw
    rw [splitWs] at hw
    cases hw
  | case2 c cs h ih =>
    intro w hw
    rw [splitWs, if_pos h] at hw
    exact ih w hw
  | case3 c cs h ih =>
    intro w hw
    rw [splitWs, if_neg h] at hw
    rcases List.mem_cons.mp hw with rfl | hw
    · refine ⟨by rw [List.takeWhile_cons_of_pos (by simpa using h)]; simp, ?_⟩
      intro d hd
      have := List.mem_takeWhile_imp hd
      simpa using this
    · exact ih w hw

theorem wordsOf_splitWs (s : List Char) :
    (splitWs s).flatMap wordsOf = wordsOf s := by
  induction s using splitWs.induct with
  | case1 => simp [splitWs, wordsOf]
  | case2 c cs h ih =>
    rw [splitWs, if_pos h, ih, wordsOf_cons_neg _ (by
      rw [isWordChar_false_of_isPySpace h]
      simp)]
  | case3 c cs h ih =>
    rw [splitWs, if_neg h, List.flatMap_cons, ih]
    have hhf : headFails isWordChar ((c :: cs).dropWhile (fun d => !isPySpace d)) := by
      have h1 := headFails_dropWhile (fun d => !isPySpace d) (c :: cs)
      rcases hd : (c :: cs).dropWhile (fun d => !isPySpace d) with _ | ⟨d, ds⟩
      · trivial
      · rw [hd] at h1
        simp only [headFails] at h1 ⊢
        rw [isWordChar_false_of_isPySpace (by simpa using h1)]
    rw [← wordsOf_append hhf, List.takeWhile_append_dropWhile]

theorem wordsOf_joinSp (L : List (List Char)) :
    wordsOf (joinSp L) = L.flatMap wordsOf := by
  induction L with
  | nil => simp [joinSp, wordsOf]
  | cons w L' ih =>
    cases L' with
    | nil => simp [joinSp]
    | cons w2 L'' =>
      rw [show joinSp (w :: w2 :: L'') = w ++ ' ' :: joinSp (w2 :: L'') from rfl]
      rw [wordsOf_append (by simp [headFails]; decide),
        wordsOf_cons_neg _ (by decide), ih]
      simp

theorem wordsOf_collapseWs (s : List Char) : wordsOf (collapseWs s) = wordsOf s := by
  rw [collapseWs, wordsOf_joinSp, wordsOf_splitWs]

/-! removeHonorifics lemmas -/

theorem remove_cons_neg {c : Char} (cs : List Char) (h : ¬isWordChar c = true) :
    removeHonorifics (c :: cs) = c :: removeHonorifics cs := by
  rw [removeHonorifics, if_neg h]

theorem headFails_remove {l : List Char} (h : headFails isWordChar l) :
    headFails isWordChar (removeHonorifics l) := by
  cases l with
  | nil =>
    rw [removeHonorifics]
    trivial
  | cons c cs =>
    simp only [headFails] at h
    rw [remove_cons_neg _ (by simp [h])]
    exact h

theorem dropDot_suffix (r : List Char) : ∀ c ∈ dropDot r, c ∈ r := by
  unfold dropDot
  split
  · intro c hc
    exact List.mem_cons_of_mem _ hc
  · intro c hc
    exact hc

theorem remove_words_not_hon (s : List Char) :
    ∀ w ∈ wordsOf (removeHonorifics s), honorifics.contains w = false := by
  induction s using removeHonorifics.induct with
  | case1 =>
    intro w hw
    rw [removeHonorifics, wordsOf] at hw
    cases hw
  | case2 c cs h hhon ih =>
    intro w hw
    rw [removeHonorifics, if_pos h, if_pos hhon] at hw
    exact ih w hw
  | case3 c cs h hhon ih =>
    intro w hw
    rw [removeHonorifics, if_pos h, if_neg hhon] at hw
    have hhf : headFails isWordChar (removeHonorifics ((c :: cs).dropWhile isWordChar)) :=
      headFails_remove (headFails_dropWhile isWordChar (c :: cs))
    rw [wordsOf_append hhf, wordsOf_all_word
      (by rw [List.takeWhile_cons_of_pos h]; simp)
      (fun d hd => List.mem_takeWhile_imp hd)] at hw
    rcases List.mem_append.mp hw with hw | hw
    · rcases List.mem_singleton.mp hw with rfl
      exact eq_false_of_ne_true hhon
    · exact ih w hw
  | case4 c cs h ih =>
    intro w hw
    rw [remove_cons_neg _ h, wordsOf_cons_neg _ h] at hw
    exact ih w hw

theorem remove_eq_self_of_noHon (s : List Char)
    (hs : ∀ w ∈ wordsOf s, honorifics.contains w = false) :
    removeHonorifics s = s := by
  induction s using removeHonorifics.induct with
  | case1 => rw [removeHonorifics]
  | case2 c cs h hhon ih =>
    exfalso
    have hmem : (c :: cs).takeWhile isWordChar ∈ wordsOf (c :: cs) := by
      rw [wordsOf, if_pos h]
      exact List.mem_cons_self _ _
    rw [hs _ hmem] at hhon
    cases hhon
  | case3 c cs h hhon ih =>
    rw [removeHonorifics, if_pos h, if_neg hhon]
    have htail : ∀ w ∈ wordsOf ((c :: cs).dropWhile isWordChar),
        honorifics.contains w = false := by
      intro w hw
      apply hs
      rw [wordsOf, if_pos h]
      exact List.mem_cons_of_mem _ hw
    rw [ih htail, List.takeWhile_append_dropWhile]
  | case4 c cs h ih =>
    rw [remove_cons_neg _ h]
    have htail : ∀ w ∈ wordsOf cs, honorifics.contains w = false := by
      intro w hw
      apply hs
      rw [wordsOf_cons_neg _ h]
      exact hw
    rw [ih htail]

/-! character preservation -/

theorem mem_of_mem_remove {c : Char} {s : List Char}
    (h : c ∈ removeHonorifics s) : c ∈ s := by
  induction s using removeHonorifics.induct with
  | case1 =>
    rw [removeHonorifics] at h
    cases h
  | case2 d cs hd hhon ih =>
    rw [removeHonorifics, if_pos hd, if_pos hhon] at h
    have h1 := dropDot_suffix _ c (ih h)
    exact (@List.dropWhile_sublist Char (d :: cs) isWordChar).subset h1
  | case3 d cs hd hhon ih =>
    rw [removeHonorifics, if_pos hd, if_neg hhon] at h
    rcases List.mem_append.mp h with h | h
    · exact (List.takeWhile_sublist _).subset h
    · exact (@List.dropWhile_sublist Char (d :: cs) isWordChar).subset (ih h)
  | case4 d cs hd ih =>
    rw [remove_cons_neg _ hd] at h
    rcases List.mem_cons.mp h with rfl | h
    · exact List.mem_cons_self _ _
    · exact List.mem_cons_of_mem _ (ih h)

theorem mem_of_mem_splitWs {c : Char} {w s : List Char}
    (hw : w ∈ splitWs s) (hc : c ∈ w) : c ∈ s := by
  induction s using splitWs.induct with
  | case1 =>
    rw [splitWs] at hw
    cases hw
  | case2 d cs hd ih =>
    rw [splitWs, if_pos hd] at hw
    exact List.mem_cons_of_mem _ (ih hw)
  | case3 d cs hd ih =>
    rw [splitWs, if_neg hd] at hw
    rcases List.mem_cons.mp hw with rfl | hw
    · exact (List.takeWhile_sublist _).subset hc
    · exact (@List.dropWhile_sublist Char (d :: cs) (fun d => !isPySpace d)).subset (ih hw)

theorem mem_of_mem_joinSp {c : Char} {L : List (List Char)} (h : c ∈ joinSp L) :
    (∃ w ∈ L, c ∈ w) ∨ c = ' ' := by
  induction L with
  | nil =>
    rw [joinSp] at h
    cases h
  | cons w L' ih =>
    cases L' with
    | nil =>
      rw [show joinSp [w] = w from rfl] at h
      exact Or.inl ⟨w, List.mem_cons_self _ _, h⟩
    | cons w2 L'' =>
      rw [show joinSp (w :: w2 :: L'') = w ++ ' ' :: joinSp (w2 :: L'') from rfl] at h
      rcases List.mem_append.mp h with h | h
      · exact Or.inl ⟨w, List.mem_cons_self _ _, h⟩
      · rcases List.mem_cons.mp h with rfl | h
        · exact Or.inr rfl
        · rcases ih h with ⟨w', hw', hc'⟩ | h
          · exact Or.inl ⟨w', List.mem_cons_of_mem _ hw', hc'⟩
          · exact Or.inr h

theorem mem_of_mem_collapseWs {c : Char} {s : List Char}
    (h : c ∈ collapseWs s) : c ∈ s ∨ c = ' ' := by
  rw [collapseWs] at h
  rcases mem_of_mem_joinSp h with ⟨w, hw, hc⟩ | h
  · exact Or.inl (mem_of_mem_splitWs hw hc)
  · exact Or.inr h

theorem pyUpper_eq_self {l : List Char} (h : ∀ c ∈ l, c.toUpper = c) :
    pyUpper l = l := by
  induction l with
  | nil => rfl
  | cons c cs ih =>
    rw [pyUpper, List.map_cons, h c (List.mem_cons_self c cs),
      show List.map Char.toUpper cs = pyUpper cs from rfl,
      ih (fun d hd => h d (List.mem_cons_of_mem c hd))]

theorem normalize_chars_fixed (s : List Char) :
    ∀ c ∈ normalize_name (some s), c.toUpper = c := by
  intro c hc
  rw [show normalize_name (some s) =
    collapseWs (removeHonorifics (pyUpper s)) from rfl] at hc
  rcases mem_of_mem_collapseWs hc with hc | rfl
  · have h1 := mem_of_mem_remove hc
    rcases List.mem_map.mp h1 with ⟨d, _, rfl⟩
    exact toUpper_toUpper d
  · decide

/-! collapse idempotence -/

theorem splitWs_all_nonws {w : List Char} (hne : w ≠ [])
    (hw : ∀ c ∈ w, isPySpace c = false) : splitWs w = [w] := by
  cases w with
  | nil => exact absurd rfl hne
  | cons c w' =>
    rw [splitWs, if_neg (by simp [hw c (List.mem_cons_self c w')])]
    rw [takeWhile_all (fun d hd => by simp [hw d hd]),
      dropWhile_all (fun d hd => by simp [hw d hd])]
    rw [show splitWs [] = [] from by rw [splitWs]]

theorem splitWs_joinSp {L : List (List Char)}
    (hL : ∀ w ∈ L, w ≠ [] ∧ ∀ c ∈ w, isPySpace c = false) :
    splitWs (joinSp L) = L := by
  induction L with
  | nil => rw [joinSp, splitWs]
  | cons w L' ih =>
    cases L' with
    | nil =>
      rw [show joinSp [w] = w from rfl]
      exact splitWs_all_nonws (hL w (List.mem_cons_self _ _)).1
        (hL w (List.mem_cons_self _ _)).2
    | cons w2 L'' =>
      rcases hL w (List.mem_cons_self _ _) with ⟨hne, hnws⟩
      have hhf : headFails (fun d => !isPySpace d) (' ' :: joinSp (w2 :: L'')) := by
        simp [headFails, isPySpace]
      have htake : (w ++ ' ' :: joinSp (w2 :: L'')).takeWhile (fun d => !isPySpace d) = w := by
        rw [takeWhile_append_headFails hhf, takeWhile_all (fun d hd => by simp [hnws d hd])]
      have hdrop : (w ++ ' ' :: joinSp (w2 :: L'')).dropWhile (fun d => !isPySpace d) =
          ' ' :: joinSp (w2 :: L'') := by
        rw [dropWhile_append_headFails hhf, dropWhile_all (fun d hd => by simp [hnws d hd]),
          List.nil_append]
      rw [show joinSp (w :: w2 :: L'') = w ++ ' ' :: joinSp (w2 :: L'') from rfl]
      rcases hw : w with _ | ⟨c, w'⟩
      · exact absurd hw hne
      · rw [List.cons_append, splitWs, if_neg (by
          have hc : isPySpace c = false := hnws c (by rw [hw]; exact List.mem_cons_self _ _)
          simp [hc])]
        rw [← List.cons_append, ← hw, htake, hdrop]
        rw [show splitWs (' ' :: joinSp (w2 :: L'')) = splitWs (joinSp (w2 :: L'')) from by
          rw [splitWs, if_pos (by decide)]]
        rw [ih (fun v hv => hL v (List.mem_cons_of_mem _ hv))]

theorem collapseWs_idem (s : List Char) :
    collapseWs (collapseWs s) = collapseWs s := by
  rw [show collapseWs (collapseWs s) =
    joinSp (splitWs (joinSp (splitWs s))) from rfl]
  rw [splitWs_joinSp (splitWs_chunks s)]
  rfl

/-! final assembly -/

theorem remove_normalize (s : List Char) :
    removeHonorifics (normalize_name (some s)) = normalize_name (some s) := by
  apply remove_eq_self_of_noHon
  intro w hw
  rw [show normalize_name (some s) =
    collapseWs (removeHonorifics (pyUpper s)) from rfl, wordsOf_collapseWs] at hw
  exact remove_words_not_hon _ w hw

theorem normalize_name_idem (s : List Char) :
    normalize_name (some (normalize_name (some s))) = normalize_name (some s) := by
  have hupper : pyUpper (normalize_name (some s)) = normalize_name (some s) :=
    pyUpper_eq_self (normalize_chars_fixed s)
  show collapseWs (removeHonorifics (pyUpper (normalize_name (some s)))) =
    normalize_name (some s)
  rw [hupper, remove_normalize]
  show collapseWs (collapseWs (removeHonorifics (pyUpper s))) =
    normalize_name (some s)
  rw [collapseWs_idem]
  rfl

end DIT

namespace DIT

/-- C9: `normalize_name` is a pure total function that is idempotent —
normalizing an already-normalized string returns it unchanged — and
case-insensitive: inputs equal up to letter case normalize to the same
canonical string; concretely `normalize_name "Dr. Jane DOE"` =
`normalize_name "JANE DOE"` = `"JANE DOE"`. -/
theorem C9_normalize_contract :
    (∀ s : List Char,
      normalize_name (some (normalize_name (some s))) = normalize_name (some s)) ∧
    (∀ x y : List Char, pyUpper x = pyUpper y →
      normalize_name (some x) = normalize_name (some y)) ∧
    normalize_name (some "Dr. Jane DOE".data) = "JANE DOE".data ∧
    normalize_name (some "JANE DOE".data) = "JANE DOE".data := by
  refine ⟨normalize_name_idem, fun x y h => ?_, ?_, ?_⟩
  · show collapseWs (removeHonorifics (pyUpper x)) =
      collapseWs (removeHonorifics (pyUpper y))
    rw [h]
  · simp +decide [normalize_name, collapseWs, removeHonorifics, splitWs, joinSp,
      pyUpper, honorifics, dropDot, isWordChar, isPySpace]
  · simp +decide [normalize_name, collapseWs, removeHonorifics, splitWs, joinSp,
      pyUpper, honorifics, dropDot, isWordChar, isPySpace]

/-- Witness for C9's case-insensitivity at concrete inputs differing only
in case. -/
theorem C9_normalize_contract_witness :
    normalize_name (some "aB c".data) = normalize_name (some "Ab C".data) :=
  C9_normalize_contract.2.1 "aB c".data "Ab C".data (by decide)

end DIT
